import Mathlib

/-!
Verification of `dimod/generators/anti_crossing.py`: the two generators
`anti_crossing_clique` and `anti_crossing_loops` building spin-valued binary
quadratic models with an all-ones ground state.

The binary-quadratic-model abstraction (`BinaryQuadraticModel`) is an external
collaborator of this module; its four weight primitives are modelled from the
specification (sparse undirected weighted graph, node weights defaulting to 0,
edge weights keyed by unordered pairs of distinct indices, set = overwrite,
add = accumulate, edge operations failing on equal endpoints).
-/

/-- The variable-domain encoding of a model, from `dimod.vartypes.Vartype`:
`SPIN` is the bipolar encoding with values in -1, +1. -/
inductive Vartype where
  | SPIN : Vartype
  | BINARY : Vartype
deriving DecidableEq

/-- Modelled from the spec: the external `WeightedGraphModel`
(`BinaryQuadraticModel`), a sparse undirected weighted graph.  `linear` is the
per-node weight (default 0 if unset) with `linearKeys` the set of nodes that
have been touched; `quad` is the per-edge weight keyed by the normalized
unordered pair with `quadKeys` the set of present edges. -/
structure BQM where
  vartype : Vartype
  linear : Nat → Int
  linearKeys : Finset Nat
  quad : Nat × Nat → Int
  quadKeys : Finset (Nat × Nat)

attribute [ext] BQM

/-- Normalized key of the unordered edge between `u` and `v`:
`(i, j)` and `(j, i)` denote the same edge. -/
def ekey (u v : Nat) : Nat × Nat :=
  if u ≤ v then (u, v) else (v, u)

/-- Modelled from the spec: a freshly constructed empty model with the given
vartype (`BinaryQuadraticModel(Vartype.SPIN)`). -/
def BQM.empty (vt : Vartype) : BQM :=
  { vartype := vt
    linear := fun _ => 0
    linearKeys := ∅
    quad := fun _ => 0
    quadKeys := ∅ }

/-- Modelled from the spec: `addNodeWeight(v, b)` — additive accumulate,
defaulting an absent node weight to 0 (`bqm.add_linear`). -/
def BQM.add_linear (bqm : BQM) (v : Nat) (b : Int) : BQM :=
  { bqm with
    linear := fun w => if w = v then bqm.linear w + b else bqm.linear w
    linearKeys := insert v bqm.linearKeys }

/-- Modelled from the spec: `setNodeWeight(v, b)` — overwrite
(`bqm.set_linear`). -/
def BQM.set_linear (bqm : BQM) (v : Nat) (b : Int) : BQM :=
  { bqm with
    linear := fun w => if w = v then b else bqm.linear w
    linearKeys := insert v bqm.linearKeys }

/-- Modelled from the spec: `addEdgeWeight(u, v, b)` — additive accumulate,
defaulting an absent edge weight to 0; fails if `u = v`
(`bqm.add_quadratic`). -/
def BQM.add_quadratic (bqm : BQM) (u v : Nat) (b : Int) : Except String BQM :=
  if u = v then
    Except.error "no self-loops allowed"
  else
    Except.ok
      { bqm with
        quad := fun p => if p = ekey u v then bqm.quad p + b else bqm.quad p
        quadKeys := insert (ekey u v) bqm.quadKeys }

/-- Modelled from the spec: `setEdgeWeight(u, v, b)` — overwrite; fails if
`u = v` (`bqm.set_quadratic`). -/
def BQM.set_quadratic (bqm : BQM) (u v : Nat) (b : Int) : Except String BQM :=
  if u = v then
    Except.error "no self-loops allowed"
  else
    Except.ok
      { bqm with
        quad := fun p => if p = ekey u v then b else bqm.quad p
        quadKeys := insert (ekey u v) bqm.quadKeys }

/-- Modelled from the spec: total energy of a spin assignment — each node
weight contributes proportionally to the node's value, each edge weight
proportionally to the product of its endpoints' values. -/
def BQM.energy (bqm : BQM) (σ : Nat → Int) : Int :=
  (∑ v in bqm.linearKeys, bqm.linear v * σ v) +
    (∑ p in bqm.quadKeys, bqm.quad p * σ p.1 * σ p.2)

/-- The set of variables of the model: every index touched by a node-weight or
edge-weight operation. -/
def BQM.nodeSet (bqm : BQM) : Finset Nat :=
  bqm.linearKeys ∪ bqm.quadKeys.image Prod.fst ∪ bqm.quadKeys.image Prod.snd

/-- Whether a generator call failed. -/
def isError (e : Except String BQM) : Bool :=
  match e with
  | Except.error _ => true
  | Except.ok _ => false

/-- The clique-internal edge keys contributed by outer iteration `n` of
`anti_crossing_clique`: `(n, m)` for `m` in `range(n + 1, hf)`. -/
def cliqueInnerKeys (hf n : Nat) : Finset (Nat × Nat) :=
  (Finset.Ico (n + 1) hf).image (fun m => (n, m))

/-- All edge keys contributed by outer iteration `n` of
`anti_crossing_clique`: the clique-internal edges plus the pendant edge. -/
def cliqueBucket (hf n : Nat) : Finset (Nat × Nat) :=
  cliqueInnerKeys hf n ∪ {(n, n + hf)}

/-- Edge keys of `anti_crossing_clique` after the first `k` outer
iterations. -/
def cliqueKeys (hf k : Nat) : Finset (Nat × Nat) :=
  (Finset.range k).biUnion (cliqueBucket hf)

/-- The state of the model under construction by `anti_crossing_clique` after
the first `k` outer iterations (before the final override of node `1`). -/
def cliqueState (hf k : Nat) : BQM :=
  { vartype := Vartype.SPIN
    linear := fun v => if v < k then 1 else if hf ≤ v ∧ v < hf + k then -1 else 0
    linearKeys := Finset.range k ∪ Finset.Ico hf (hf + k)
    quad := fun p => if p ∈ cliqueKeys hf k then -1 else 0
    quadKeys := cliqueKeys hf k }

/-- The final model built by `anti_crossing_clique` for `num_variables =
2 * hf`. -/
def cliqueModel (hf : Nat) : BQM :=
  { vartype := Vartype.SPIN
    linear := fun v => if v = 1 then 0 else if v < hf then 1
      else if v < 2 * hf then -1 else 0
    linearKeys := Finset.range (2 * hf)
    quad := fun p => if p ∈ cliqueKeys hf hf then -1 else 0
    quadKeys := cliqueKeys hf hf }

/-- The cycle and cross-link edge keys contributed by iteration `n` of
`anti_crossing_loops`. -/
def loopsRestBucket (hf n : Nat) : Finset (Nat × Nat) :=
  (if n % 2 = 1 then {(n, n + hf)} else ∅) ∪
    {ekey n ((n + 1) % hf), ekey (n + hf) ((n + 1) % hf + hf)}

/-- The two decoration (pendant) edge keys contributed by iteration `n` of
`anti_crossing_loops`. -/
def loopsPendBucket (hf n : Nat) : Finset (Nat × Nat) :=
  {(n, n + 2 * hf), (n + hf, n + 3 * hf)}

/-- All edge keys contributed by iteration `n` of `anti_crossing_loops`. -/
def loopsBucket (hf n : Nat) : Finset (Nat × Nat) :=
  loopsRestBucket hf n ∪ loopsPendBucket hf n

/-- Edge keys of `anti_crossing_loops` after the first `k` iterations. -/
def loopsKeys (hf k : Nat) : Finset (Nat × Nat) :=
  (Finset.range k).biUnion (loopsBucket hf)

/-- All cycle and cross-link edge keys of `anti_crossing_loops`. -/
def restKeys (hf : Nat) : Finset (Nat × Nat) :=
  (Finset.range hf).biUnion (loopsRestBucket hf)

/-- All decoration edge keys of `anti_crossing_loops`. -/
def pendKeys (hf : Nat) : Finset (Nat × Nat) :=
  (Finset.range hf).biUnion (loopsPendBucket hf)

/-- The state of the model under construction by `anti_crossing_loops` after
the first `k` iterations (before the final overrides of nodes `0` and
`hf`). -/
def loopsState (hf k : Nat) : BQM :=
  { vartype := Vartype.SPIN
    linear := fun v => if v < k then 1 else if hf ≤ v ∧ v < hf + k then 1
      else if 2 * hf ≤ v ∧ v < 2 * hf + k then -1
      else if 3 * hf ≤ v ∧ v < 3 * hf + k then -1 else 0
    linearKeys := (Finset.range k ∪ Finset.Ico hf (hf + k)) ∪
      (Finset.Ico (2 * hf) (2 * hf + k) ∪ Finset.Ico (3 * hf) (3 * hf + k))
    quad := fun p => if p ∈ loopsKeys hf k then -1 else 0
    quadKeys := loopsKeys hf k }

/-- Intermediate state of `anti_crossing_loops` inside iteration `k`: linear
data as after `k` full iterations, edge data with key set `K`. -/
def loopsMid (hf k : Nat) (K : Finset (Nat × Nat)) : BQM :=
  { loopsState hf k with
    quad := fun p => if p ∈ K then -1 else 0
    quadKeys := K }

/-- The final model built by `anti_crossing_loops` for `num_variables` with
`hf = num_variables // 4`. -/
def loopsModel (hf : Nat) : BQM :=
  { vartype := Vartype.SPIN
    linear := fun v => if v = 0 then 0 else if v = hf then 0
      else if v < 2 * hf then 1 else if v < 4 * hf then -1 else 0
    linearKeys := Finset.range (4 * hf)
    quad := fun p => if p ∈ loopsKeys hf hf then -1 else 0
    quadKeys := loopsKeys hf hf }

/-- Sum of `σ n * σ m` over all pairs `n < m < k`: the clique-internal
interaction part of the energy. -/
def pairSum (σ : Nat → Int) (k : Nat) : Int :=
  ∑ n in Finset.range k, ∑ m in Finset.Ico (n + 1) k, σ n * σ m

/-- Inner loop of `anti_crossing_clique`: `for m in range(n + 1, hf):
bqm.add_quadratic(n, m, -1)`, with the iteration list made explicit. -/
def cliqueInner (n : Nat) (ms : List Nat) (bqm : BQM) : Except String BQM :=
  match ms with
  | [] => Except.ok bqm
  | m :: ms =>
    match bqm.add_quadratic n m (-1) with
    | Except.error e => Except.error e
    | Except.ok bqm => cliqueInner n ms bqm

/-- Outer loop of `anti_crossing_clique`: `for n in range(hf): ...`, with the
iteration list made explicit.  Per iteration: the inner clique edges, the
pendant edge `(n, n + hf)`, and the two linear-bias accumulations. -/
def cliqueLoop (hf : Nat) (ns : List Nat) (bqm : BQM) : Except String BQM :=
  match ns with
  | [] => Except.ok bqm
  | n :: ns =>
    match cliqueInner n (List.range' (n + 1) (hf - (n + 1))) bqm with
    | Except.error e => Except.error e
    | Except.ok bqm =>
      match bqm.add_quadratic n (n + hf) (-1) with
      | Except.error e => Except.error e
      | Except.ok bqm =>
        cliqueLoop hf ns ((bqm.add_linear n 1).add_linear (n + hf) (-1))

/-- `anti_crossing_clique(num_variables)` from
`src/dimod/generators/anti_crossing.py`: raises for odd or `< 6` input, then
builds a ferromagnetic clique on `[0, hf)` with pendant variables `[hf, 2*hf)`
and finally forces variable `1`'s linear bias to `0`. -/
def anti_crossing_clique (num_variables : Int) : Except String BQM :=
  if num_variables % 2 ≠ 0 ∨ num_variables < 6 then
    Except.error "num_variables must be an even number >= 6"
  else
    match cliqueLoop (num_variables / 2).toNat
        (List.range (num_variables / 2).toNat) (BQM.empty Vartype.SPIN) with
    | Except.error e => Except.error e
    | Except.ok bqm => Except.ok (bqm.set_linear 1 0)

/-- Loop body of `anti_crossing_loops`: `for n in range(hf): ...`, with the
iteration list made explicit.  Per iteration: the conditional cross-link at odd
`n`, the two cycle edges, the two decoration edges, and the four linear-bias
accumulations. -/
def loopsLoop (hf : Nat) (ns : List Nat) (bqm : BQM) : Except String BQM :=
  match ns with
  | [] => Except.ok bqm
  | n :: ns =>
    match (if n % 2 = 1 then bqm.set_quadratic n (n + hf) (-1)
           else Except.ok bqm) with
    | Except.error e => Except.error e
    | Except.ok bqm =>
      match bqm.set_quadratic n ((n + 1) % hf) (-1) with
      | Except.error e => Except.error e
      | Except.ok bqm =>
        match bqm.set_quadratic (n + hf) ((n + 1) % hf + hf) (-1) with
        | Except.error e => Except.error e
        | Except.ok bqm =>
          match bqm.set_quadratic n (n + 2 * hf) (-1) with
          | Except.error e => Except.error e
          | Except.ok bqm =>
            match bqm.set_quadratic (n + hf) (n + 3 * hf) (-1) with
            | Except.error e => Except.error e
            | Except.ok bqm =>
              loopsLoop hf ns
                ((((bqm.add_linear n 1).add_linear (n + hf) 1).add_linear
                    (n + 2 * hf) (-1)).add_linear (n + 3 * hf) (-1))

/-- `anti_crossing_loops(num_variables)` from
`src/dimod/generators/anti_crossing.py`: raises for odd or `< 8` input, then
builds two cross-linked ferromagnetic cycles on `[0, hf)` and `[hf, 2*hf)`
with decoration variables `[2*hf, 4*hf)`, and finally forces the linear biases
of variables `0` and `hf` to `0`. -/
def anti_crossing_loops (num_variables : Int) : Except String BQM :=
  if num_variables % 2 ≠ 0 ∨ num_variables < 8 then
    Except.error "num_variables must be an even number >= 8"
  else
    let hf := (num_variables / 4).toNat
    match loopsLoop hf (List.range hf) (BQM.empty Vartype.SPIN) with
    | Except.error e => Except.error e
    | Except.ok bqm => Except.ok ((bqm.set_linear 0 0).set_linear hf 0)

lemma ekey_of_le {u v : Nat} (h : u ≤ v) : ekey u v = (u, v) := by
  simp [ekey, h]

lemma ekey_cases (u v : Nat) : ekey u v = (u, v) ∨ ekey u v = (v, u) := by
  unfold ekey
  split
  · exact Or.inl rfl
  · exact Or.inr rfl

lemma mem_cliqueInnerKeys {hf n a b : Nat} :
    (a, b) ∈ cliqueInnerKeys hf n ↔ a = n ∧ n < b ∧ b < hf := by
  simp only [cliqueInnerKeys, Finset.mem_image, Finset.mem_Ico, Prod.mk.injEq]
  constructor
  · rintro ⟨m, ⟨h1, h2⟩, rfl, rfl⟩
    omega
  · rintro ⟨rfl, h1, h2⟩
    exact ⟨b, ⟨by omega, h2⟩, rfl, rfl⟩

lemma mem_cliqueKeys {hf k a b : Nat} :
    (a, b) ∈ cliqueKeys hf k ↔
      (a < k ∧ a < b ∧ b < hf) ∨ (a < k ∧ b = a + hf) := by
  simp only [cliqueKeys, cliqueBucket, Finset.mem_biUnion, Finset.mem_range,
    Finset.mem_union, Finset.mem_singleton, mem_cliqueInnerKeys, Prod.mk.injEq]
  constructor
  · rintro ⟨n, hn, ⟨rfl, h1, h2⟩ | ⟨rfl, rfl⟩⟩
    · exact Or.inl ⟨hn, h1, h2⟩
    · exact Or.inr ⟨hn, rfl⟩
  · rintro (⟨ha, h1, h2⟩ | ⟨ha, rfl⟩)
    · exact ⟨a, ha, Or.inl ⟨rfl, h1, h2⟩⟩
    · exact ⟨a, ha, Or.inr ⟨rfl, rfl⟩⟩


lemma cliqueInner_spec (n : Nat) :
    ∀ (ms : List Nat) (bqm : BQM), (∀ m ∈ ms, n < m) → ms.Nodup →
      cliqueInner n ms bqm = Except.ok
        { bqm with
          quad := fun p => if p ∈ ms.toFinset.image (fun m => (n, m)) then
            bqm.quad p + (-1) else bqm.quad p
          quadKeys := bqm.quadKeys ∪ ms.toFinset.image (fun m => (n, m)) } := by
  intro ms
  induction ms with
  | nil =>
    intro bqm _ _
    show Except.ok bqm = _
    congr 1
    ext p
    · rfl
    · rfl
    · simp
    · simp
    · simp
  | cons m ms ih =>
    intro bqm hlt hnd
    have hnm : n ≠ m := by
      have := hlt m (List.mem_cons_self m ms)
      omega
    have hle : n ≤ m := Nat.le_of_lt (hlt m (List.mem_cons_self m ms))
    have hmnotin : m ∉ ms := (List.nodup_cons.mp hnd).1
    simp only [cliqueInner, BQM.add_quadratic, if_neg hnm, ekey_of_le hle]
    rw [ih _ (fun x hx => hlt x (List.mem_cons_of_mem m hx)) hnd.of_cons]
    congr 1
    have hcontra : (n, m) ∉ ms.toFinset.image (fun x => (n, x)) := by
      intro hp
      simp only [Finset.mem_image, List.mem_toFinset, Prod.mk.injEq] at hp
      obtain ⟨x, hx, -, rfl⟩ := hp
      exact hmnotin hx
    ext p
    · rfl
    · rfl
    · simp
    · show _ = (if p ∈ (m :: ms).toFinset.image (fun x => (n, x)) then
        bqm.quad p + (-1) else bqm.quad p)
      simp only [List.toFinset_cons, Finset.image_insert, Finset.mem_insert]
      by_cases h1 : p ∈ ms.toFinset.image (fun x => (n, x)) <;>
        by_cases h2 : p = (n, m)
      · exact absurd (h2 ▸ h1) hcontra
      · simp [h1, h2]
      · simp [h1, h2, hmnotin]
      · simp [h1, h2]
    · show p ∈ _ ↔ p ∈ bqm.quadKeys ∪ (m :: ms).toFinset.image (fun x => (n, x))
      simp only [List.toFinset_cons, Finset.image_insert, Finset.mem_union,
        Finset.mem_insert]
      tauto

lemma range'_toFinset (a b : Nat) :
    (List.range' a b).toFinset = Finset.Ico a (a + b) := by
  ext m
  simp only [List.mem_toFinset, List.mem_range'_1, Finset.mem_Ico]

lemma cliqueState_zero (hf : Nat) : cliqueState hf 0 = BQM.empty Vartype.SPIN := by
  unfold cliqueState BQM.empty
  ext p
  · rfl
  · simp
  · simp
  · simp [cliqueKeys]
  · simp [cliqueKeys]

lemma cliqueLoop_cons (hf k : Nat) (ns : List Nat) (hk : k < hf) :
    cliqueLoop hf (k :: ns) (cliqueState hf k) =
      cliqueLoop hf ns (cliqueState hf (k + 1)) := by
  have hIco : k + 1 + (hf - (k + 1)) = hf := by omega
  simp only [cliqueLoop]
  rw [cliqueInner_spec k (List.range' (k + 1) (hf - (k + 1))) _
    (fun m hm => by
      have := List.mem_range'_1.mp hm
      omega)
    (List.nodup_range' _ _)]
  simp only [BQM.add_quadratic, if_neg (by omega : ¬ k = k + hf),
    ekey_of_le (Nat.le_add_right k hf)]
  congr 1
  ext p
  · rfl
  · show (if p = k + hf then
        (if p = k then (cliqueState hf k).linear p + 1
          else (cliqueState hf k).linear p) + (-1)
        else (if p = k then (cliqueState hf k).linear p + 1
          else (cliqueState hf k).linear p)) = _
    simp only [cliqueState]
    split_ifs <;> omega
  · show p ∈ insert (k + hf) (insert k (cliqueState hf k).linearKeys) ↔ _
    simp only [cliqueState, Finset.mem_insert, Finset.mem_union,
      Finset.mem_range, Finset.mem_Ico]
    omega
  · obtain ⟨a, b⟩ := p
    show (if (a, b) = (k, k + hf) then
        (if (a, b) ∈ (List.range' (k + 1) (hf - (k + 1))).toFinset.image
            (fun m => (k, m)) then (cliqueState hf k).quad (a, b) + (-1)
          else (cliqueState hf k).quad (a, b)) + (-1)
        else (if (a, b) ∈ (List.range' (k + 1) (hf - (k + 1))).toFinset.image
            (fun m => (k, m)) then (cliqueState hf k).quad (a, b) + (-1)
          else (cliqueState hf k).quad (a, b))) = _
    rw [range'_toFinset, hIco]
    show (if (a, b) = (k, k + hf) then
        (if (a, b) ∈ cliqueInnerKeys hf k then _ else _) + (-1)
        else (if (a, b) ∈ cliqueInnerKeys hf k then _ else _)) = _
    simp only [cliqueState, mem_cliqueInnerKeys, mem_cliqueKeys, Prod.mk.injEq]
    split_ifs <;> omega
  · obtain ⟨a, b⟩ := p
    show (a, b) ∈ insert (k, k + hf) ((cliqueState hf k).quadKeys ∪
        (List.range' (k + 1) (hf - (k + 1))).toFinset.image (fun m => (k, m))) ↔ _
    rw [range'_toFinset, hIco]
    show (a, b) ∈ insert (k, k + hf)
        ((cliqueState hf k).quadKeys ∪ cliqueInnerKeys hf k) ↔ _
    simp only [cliqueState, Finset.mem_insert, Finset.mem_union, mem_cliqueKeys,
      mem_cliqueInnerKeys, Prod.mk.injEq]
    omega

lemma cliqueLoop_spec (hf : Nat) :
    ∀ d k, k + d = hf →
      cliqueLoop hf (List.range' k d) (cliqueState hf k) =
        Except.ok (cliqueState hf hf) := by
  intro d
  induction d with
  | zero =>
    intro k hk
    have hkhf : k = hf := by omega
    subst hkhf
    rfl
  | succ d ih =>
    intro k hk
    show cliqueLoop hf (k :: List.range' (k + 1) d) (cliqueState hf k) = _
    rw [cliqueLoop_cons hf k _ (by omega)]
    exact ih (k + 1) (by omega)

lemma clique_spec (n : Int) (h2 : n % 2 = 0) (h6 : 6 ≤ n) :
    anti_crossing_clique n = Except.ok (cliqueModel (n / 2).toNat) := by
  unfold anti_crossing_clique
  rw [if_neg (by omega : ¬ (n % 2 ≠ 0 ∨ n < 6))]
  have h3 : 3 ≤ (n / 2).toNat := by omega
  generalize hhf : (n / 2).toNat = hf at *
  rw [List.range_eq_range', ← cliqueState_zero hf,
    cliqueLoop_spec hf hf 0 (by omega)]
  show Except.ok ((cliqueState hf hf).set_linear 1 0) = _
  congr 1
  ext p
  · rfl
  · show (if p = 1 then 0 else (cliqueState hf hf).linear p) = _
    simp only [cliqueState, cliqueModel]
    split_ifs <;> omega
  · show p ∈ insert 1 (cliqueState hf hf).linearKeys ↔ _
    simp only [cliqueState, cliqueModel, Finset.mem_insert, Finset.mem_union,
      Finset.mem_range, Finset.mem_Ico]
    omega
  · rfl
  · rfl

lemma set_quadratic_ok (bqm : BQM) {u v : Nat} (h : ¬ u = v) (b : Int) :
    bqm.set_quadratic u v b = Except.ok
      { bqm with
        quad := fun p => if p = ekey u v then b else bqm.quad p
        quadKeys := insert (ekey u v) bqm.quadKeys } := by
  simp [BQM.set_quadratic, h]

lemma succ_mod_ne {hf k : Nat} (h2 : 2 ≤ hf) (hk : k < hf) :
    ¬ k = (k + 1) % hf := by
  by_cases h : k + 1 = hf
  · rw [h, Nat.mod_self]
    omega
  · rw [Nat.mod_eq_of_lt (by omega)]
    omega

lemma succ_mod_lt {hf k : Nat} (h2 : 2 ≤ hf) : (k + 1) % hf < hf :=
  Nat.mod_lt _ (by omega)

lemma mem_loopsBucket {hf k : Nat} {p : Nat × Nat} :
    p ∈ loopsBucket hf k ↔
      ((k % 2 = 1 ∧ p = (k, k + hf)) ∨ p = ekey k ((k + 1) % hf) ∨
        p = ekey (k + hf) ((k + 1) % hf + hf)) ∨
      (p = (k, k + 2 * hf) ∨ p = (k + hf, k + 3 * hf)) := by
  unfold loopsBucket loopsRestBucket loopsPendBucket
  by_cases hodd : k % 2 = 1 <;>
    simp [hodd, Finset.mem_union, Finset.mem_insert, Finset.mem_singleton] <;>
    tauto

lemma loopsKeys_succ (hf k : Nat) :
    loopsKeys hf (k + 1) = loopsBucket hf k ∪ loopsKeys hf k := by
  unfold loopsKeys
  rw [Finset.range_succ, Finset.biUnion_insert]

lemma loopsState_zero (hf : Nat) : loopsState hf 0 = BQM.empty Vartype.SPIN := by
  unfold loopsState BQM.empty
  ext p
  · rfl
  · show (if p < 0 then (1 : Int) else if hf ≤ p ∧ p < hf + 0 then 1
      else if 2 * hf ≤ p ∧ p < 2 * hf + 0 then -1
      else if 3 * hf ≤ p ∧ p < 3 * hf + 0 then -1 else 0) = 0
    split_ifs <;> omega
  · simp
  · simp [loopsKeys]
  · simp [loopsKeys]

lemma loopsMid_start (hf k : Nat) :
    loopsState hf k = loopsMid hf k (loopsKeys hf k) := rfl

lemma mid_set {hf k : Nat} {K : Finset (Nat × Nat)} {u v : Nat}
    (h : ¬ u = v) :
    (loopsMid hf k K).set_quadratic u v (-1) =
      Except.ok (loopsMid hf k (insert (ekey u v) K)) := by
  rw [set_quadratic_ok _ h]
  congr 1
  ext p
  · rfl
  · rfl
  · rfl
  · show (if p = ekey u v then -1 else if p ∈ K then (-1 : Int) else 0) =
      (if p ∈ insert (ekey u v) K then (-1 : Int) else 0)
    by_cases hp : p = ekey u v <;> by_cases hq : p ∈ K <;>
      simp [hp, hq, Finset.mem_insert]
  · rfl

set_option maxHeartbeats 1000000 in
lemma mid_to_state (hf k : Nat) (h2 : 2 ≤ hf) (hk : k < hf) :
    ((((loopsMid hf k (loopsKeys hf (k + 1))).add_linear k 1).add_linear
        (k + hf) 1).add_linear (k + 2 * hf) (-1)).add_linear (k + 3 * hf) (-1) =
      loopsState hf (k + 1) := by
  ext p
  · rfl
  · simp only [BQM.add_linear, loopsMid, loopsState]
    split_ifs <;> omega
  · simp only [BQM.add_linear, loopsMid, loopsState, Finset.mem_insert,
      Finset.mem_union, Finset.mem_range, Finset.mem_Ico]
    omega
  · rfl
  · rfl

lemma bucket_inserts_odd (hf k : Nat) (hodd : k % 2 = 1) :
    insert (k + hf, k + 3 * hf) (insert (k, k + 2 * hf)
      (insert (ekey (k + hf) ((k + 1) % hf + hf)) (insert (ekey k ((k + 1) % hf))
        (insert (k, k + hf) (loopsKeys hf k))))) = loopsKeys hf (k + 1) := by
  rw [loopsKeys_succ]
  ext p
  simp only [Finset.mem_insert, Finset.mem_union, mem_loopsBucket, hodd,
    true_and]
  tauto

lemma bucket_inserts_even (hf k : Nat) (hodd : ¬ k % 2 = 1) :
    insert (k + hf, k + 3 * hf) (insert (k, k + 2 * hf)
      (insert (ekey (k + hf) ((k + 1) % hf + hf))
        (insert (ekey k ((k + 1) % hf)) (loopsKeys hf k)))) =
      loopsKeys hf (k + 1) := by
  rw [loopsKeys_succ]
  ext p
  simp only [Finset.mem_insert, Finset.mem_union, mem_loopsBucket, hodd,
    false_and, false_or]
  tauto

lemma loopsLoop_cons (hf k : Nat) (ns : List Nat) (h2 : 2 ≤ hf) (hk : k < hf) :
    loopsLoop hf (k :: ns) (loopsState hf k) =
      loopsLoop hf ns (loopsState hf (k + 1)) := by
  have hne1 : ¬ k = k + hf := by omega
  have hne2 : ¬ k = (k + 1) % hf := succ_mod_ne h2 hk
  have hne3 : ¬ k + hf = (k + 1) % hf + hf := by omega
  have hne4 : ¬ k = k + 2 * hf := by omega
  have hne5 : ¬ k + hf = k + 3 * hf := by omega
  rw [loopsMid_start hf k]
  by_cases hodd : k % 2 = 1
  · simp only [loopsLoop, if_pos hodd, mid_set hne1, mid_set hne2,
      mid_set hne3, mid_set hne4, mid_set hne5,
      ekey_of_le (Nat.le_add_right k hf),
      ekey_of_le (Nat.le_add_right k (2 * hf)),
      ekey_of_le (by omega : k + hf ≤ k + 3 * hf)]
    rw [bucket_inserts_odd hf k hodd, mid_to_state hf k h2 hk]
  · simp only [loopsLoop, if_neg hodd, mid_set hne2,
      mid_set hne3, mid_set hne4, mid_set hne5,
      ekey_of_le (Nat.le_add_right k (2 * hf)),
      ekey_of_le (by omega : k + hf ≤ k + 3 * hf)]
    rw [bucket_inserts_even hf k hodd, mid_to_state hf k h2 hk]

lemma loopsLoop_spec (hf : Nat) (h2 : 2 ≤ hf) :
    ∀ d k, k + d = hf →
      loopsLoop hf (List.range' k d) (loopsState hf k) =
        Except.ok (loopsState hf hf) := by
  intro d
  induction d with
  | zero =>
    intro k hk
    have hkhf : k = hf := by omega
    subst hkhf
    rfl
  | succ d ih =>
    intro k hk
    show loopsLoop hf (k :: List.range' (k + 1) d) (loopsState hf k) = _
    rw [loopsLoop_cons hf k _ h2 (by omega)]
    exact ih (k + 1) (by omega)

lemma loops_spec (n : Int) (h2 : n % 2 = 0) (h8 : 8 ≤ n) :
    anti_crossing_loops n = Except.ok (loopsModel (n / 4).toNat) := by
  unfold anti_crossing_loops
  rw [if_neg (by omega : ¬ (n % 2 ≠ 0 ∨ n < 8))]
  have h2hf : 2 ≤ (n / 4).toNat := by omega
  generalize hhf : (n / 4).toNat = hf at *
  show (match loopsLoop hf (List.range hf) (BQM.empty Vartype.SPIN) with
    | Except.error e => Except.error e
    | Except.ok bqm => Except.ok ((bqm.set_linear 0 0).set_linear hf 0)) =
      Except.ok (loopsModel hf)
  rw [List.range_eq_range', ← loopsState_zero hf,
    loopsLoop_spec hf h2hf hf 0 (by omega)]
  show Except.ok (((loopsState hf hf).set_linear 0 0).set_linear hf 0) = _
  congr 1
  ext p
  · rfl
  · show (if p = hf then 0 else if p = 0 then 0 else (loopsState hf hf).linear p) = _
    simp only [loopsState, loopsModel]
    split_ifs <;> omega
  · show p ∈ insert hf (insert 0 (loopsState hf hf).linearKeys) ↔ _
    simp only [loopsState, loopsModel, Finset.mem_insert, Finset.mem_union,
      Finset.mem_range, Finset.mem_Ico]
    omega
  · rfl
  · rfl

lemma pm_mul_le_one {x y : Int} (hx : x = 1 ∨ x = -1) (hy : y = 1 ∨ y = -1) :
    x * y ≤ 1 := by
  rcases hx with rfl | rfl <;> rcases hy with rfl | rfl <;> norm_num

lemma pend_bound {x y : Int} (hx : x = 1 ∨ x = -1) (hy : y = 1 ∨ y = -1) :
    -x - 1 ≤ -y - x * y := by
  rcases hx with rfl | rfl <;> rcases hy with rfl | rfl <;> norm_num

lemma tri_bound {c x y : Int} (hc : c = 0 ∨ c = 1) (hx : x = 1 ∨ x = -1)
    (hy : y = 1 ∨ y = -1) :
    0 ≤ c * (x - 1) - (y - 1) - (x * y - 1) := by
  rcases hc with rfl | rfl <;> rcases hx with rfl | rfl <;>
    rcases hy with rfl | rfl <;> norm_num

lemma cliqueBucket_fst {hf n : Nat} {p : Nat × Nat}
    (hp : p ∈ cliqueBucket hf n) : p.1 = n := by
  obtain ⟨a, b⟩ := p
  rcases Finset.mem_union.mp hp with h | h
  · exact (mem_cliqueInnerKeys.mp h).1
  · rw [Finset.mem_singleton] at h
    rw [Prod.mk.injEq] at h
    exact h.1

lemma cliqueBucket_disjoint (hf : Nat) :
    (↑(Finset.range hf) : Set Nat).PairwiseDisjoint (cliqueBucket hf) := by
  intro x _ y _ hxy
  simp only [Function.onFun]
  rw [Finset.disjoint_left]
  intro p hpx hpy
  exact hxy ((cliqueBucket_fst hpx) ▸ (cliqueBucket_fst hpy))

lemma clique_linear_sum (hf : Nat) (h3 : 3 ≤ hf) (σ : Nat → Int) :
    ∑ v in (cliqueModel hf).linearKeys, (cliqueModel hf).linear v * σ v =
      ((∑ v in Finset.range hf, σ v) - σ 1) +
        -(∑ i in Finset.range hf, σ (i + hf)) := by
  have hsplit : (∑ v in Finset.Ico 0 hf, (cliqueModel hf).linear v * σ v) +
      (∑ v in Finset.Ico hf (2 * hf), (cliqueModel hf).linear v * σ v) =
      ∑ v in Finset.Ico 0 (2 * hf), (cliqueModel hf).linear v * σ v :=
    Finset.sum_Ico_consecutive _ (by omega) (by omega)
  have hLK : (cliqueModel hf).linearKeys = Finset.Ico 0 (2 * hf) := by
    rw [← Finset.range_eq_Ico]
    rfl
  rw [hLK, ← hsplit, ← Finset.range_eq_Ico]
  have h1 : ∑ v in Finset.range hf, (cliqueModel hf).linear v * σ v =
      (∑ v in Finset.range hf, σ v) - σ 1 := by
    have hcong : ∀ v ∈ Finset.range hf, (cliqueModel hf).linear v * σ v =
        σ v - (if v = 1 then σ v else 0) := by
      intro v hv
      rw [Finset.mem_range] at hv
      show (if v = 1 then 0 else if v < hf then 1
        else if v < 2 * hf then -1 else 0 : Int) * σ v = _
      split_ifs with he <;> simp [he]
    rw [Finset.sum_congr rfl hcong, Finset.sum_sub_distrib,
      Finset.sum_ite_eq' (Finset.range hf) 1 σ,
      if_pos (Finset.mem_range.mpr (by omega))]
  have h2 : ∑ v in Finset.Ico hf (2 * hf), (cliqueModel hf).linear v * σ v =
      -(∑ i in Finset.range hf, σ (i + hf)) := by
    rw [Finset.sum_Ico_eq_sum_range]
    have hsub : 2 * hf - hf = hf := by omega
    rw [hsub]
    have hcong : ∀ i ∈ Finset.range hf, (cliqueModel hf).linear (hf + i) *
        σ (hf + i) = -σ (i + hf) := by
      intro i hi
      rw [Finset.mem_range] at hi
      show (if hf + i = 1 then 0 else if hf + i < hf then 1
        else if hf + i < 2 * hf then -1 else 0 : Int) * σ (hf + i) = _
      rw [if_neg (by omega), if_neg (by omega), if_pos (by omega),
        Nat.add_comm hf i]
      ring
    rw [Finset.sum_congr rfl hcong, Finset.sum_neg_distrib]
  rw [h1, h2]

lemma clique_quad_sum (hf : Nat) (σ : Nat → Int) :
    ∑ p in (cliqueModel hf).quadKeys,
        (cliqueModel hf).quad p * σ p.1 * σ p.2 =
      -pairSum σ hf + -(∑ n in Finset.range hf, σ n * σ (n + hf)) := by
  show ∑ p in cliqueKeys hf hf, (cliqueModel hf).quad p * σ p.1 * σ p.2 = _
  rw [cliqueKeys, Finset.sum_biUnion (cliqueBucket_disjoint hf)]
  have hbucket : ∀ n ∈ Finset.range hf,
      (∑ p in cliqueBucket hf n, (cliqueModel hf).quad p * σ p.1 * σ p.2) =
        (∑ m in Finset.Ico (n + 1) hf, -(σ n * σ m)) + -(σ n * σ (n + hf)) := by
    intro n hn
    rw [Finset.mem_range] at hn
    have hdisj : Disjoint (cliqueInnerKeys hf n) ({(n, n + hf)} :
        Finset (Nat × Nat)) := by
      rw [Finset.disjoint_singleton_right]
      intro hmem
      have := mem_cliqueInnerKeys.mp hmem
      omega
    rw [cliqueBucket, Finset.sum_union hdisj]
    have hinner : ∑ p in cliqueInnerKeys hf n,
        (cliqueModel hf).quad p * σ p.1 * σ p.2 =
        ∑ m in Finset.Ico (n + 1) hf, -(σ n * σ m) := by
      rw [cliqueInnerKeys, Finset.sum_image (by
        intro x _ y _ he
        exact (Prod.mk.injEq n x n y ▸ he).2)]
      refine Finset.sum_congr rfl ?_
      intro m hm
      rw [Finset.mem_Ico] at hm
      have hmem : ((n, m) : Nat × Nat) ∈ cliqueKeys hf hf :=
        mem_cliqueKeys.mpr (Or.inl ⟨hn, by omega, by omega⟩)
      show (if (n, m) ∈ cliqueKeys hf hf then (-1 : Int) else 0) * σ n * σ m = _
      rw [if_pos hmem]
      ring
    have hpend : ∑ p in ({(n, n + hf)} : Finset (Nat × Nat)),
        (cliqueModel hf).quad p * σ p.1 * σ p.2 = -(σ n * σ (n + hf)) := by
      rw [Finset.sum_singleton]
      have hmem : ((n, n + hf) : Nat × Nat) ∈ cliqueKeys hf hf :=
        mem_cliqueKeys.mpr (Or.inr ⟨hn, rfl⟩)
      show (if (n, n + hf) ∈ cliqueKeys hf hf then (-1 : Int) else 0) *
        σ n * σ (n + hf) = _
      rw [if_pos hmem]
      ring
    rw [hinner, hpend]
  rw [Finset.sum_congr rfl hbucket, Finset.sum_add_distrib]
  congr 1
  · rw [pairSum, ← Finset.sum_neg_distrib]
    refine Finset.sum_congr rfl ?_
    intro n _
    rw [Finset.sum_neg_distrib]
  · rw [Finset.sum_neg_distrib]

lemma pairSum_succ (σ : Nat → Int) (k : Nat) :
    pairSum σ (k + 1) = pairSum σ k + (∑ v in Finset.range k, σ v) * σ k := by
  unfold pairSum
  rw [Finset.sum_range_succ]
  have h0 : ∑ m in Finset.Ico (k + 1) (k + 1), σ k * σ m = 0 := by simp
  rw [h0, add_zero]
  have hcong : ∀ n ∈ Finset.range k,
      (∑ m in Finset.Ico (n + 1) (k + 1), σ n * σ m) =
        (∑ m in Finset.Ico (n + 1) k, σ n * σ m) + σ n * σ k := by
    intro n hn
    rw [Finset.mem_range] at hn
    rw [Finset.sum_Ico_succ_top (by omega)]
  rw [Finset.sum_congr rfl hcong, Finset.sum_add_distrib, ← Finset.sum_mul]

lemma two_pairSum (σ : Nat → Int) (hσ : ∀ v, σ v = 1 ∨ σ v = -1) :
    ∀ k, 2 * pairSum σ k = (∑ v in Finset.range k, σ v) ^ 2 - k := by
  intro k
  induction k with
  | zero => simp [pairSum]
  | succ k ih =>
    have hk : σ k * σ k = 1 := by
      rcases hσ k with h | h <;> rw [h] <;> norm_num
    rw [pairSum_succ, Finset.sum_range_succ]
    push_cast
    linear_combination ih - hk

lemma sum_pm_sq_le (σ : Nat → Int) (hσ : ∀ v, σ v = 1 ∨ σ v = -1) (k : Nat) :
    (∑ v in Finset.range k, σ v) ^ 2 ≤ (k : Int) ^ 2 := by
  have habs : |∑ v in Finset.range k, σ v| ≤ (k : Int) := by
    calc |∑ v in Finset.range k, σ v| ≤ ∑ v in Finset.range k, |σ v| :=
          Finset.abs_sum_le_sum_abs _ _
      _ = ∑ v in Finset.range k, 1 := by
          refine Finset.sum_congr rfl ?_
          intro v _
          rcases hσ v with h | h <;> rw [h] <;> norm_num
      _ = (k : Int) := by simp
  have h1 := abs_le.mp habs
  exact sq_le_sq' (by linarith) (by linarith)

lemma clique_energy_min (hf : Nat) (h3 : 3 ≤ hf) (σ : Nat → Int)
    (hσ : ∀ v, σ v = 1 ∨ σ v = -1) :
    (cliqueModel hf).energy (fun _ => 1) ≤ (cliqueModel hf).energy σ := by
  have hE : ∀ τ : Nat → Int, (cliqueModel hf).energy τ =
      ((∑ v in Finset.range hf, τ v) - τ 1) +
        -(∑ i in Finset.range hf, τ (i + hf)) +
        (-pairSum τ hf + -(∑ n in Finset.range hf, τ n * τ (n + hf))) := by
    intro τ
    rw [BQM.energy, clique_linear_sum hf h3 τ, clique_quad_sum hf τ]
  rw [hE σ, hE (fun _ => 1)]
  simp only [Finset.sum_const, Finset.card_range, nsmul_eq_mul, mul_one]
  have hQ : ∑ n in Finset.range hf, (-σ n - 1) ≤
      ∑ n in Finset.range hf, (-σ (n + hf) - σ n * σ (n + hf)) := by
    refine Finset.sum_le_sum ?_
    intro n _
    exact pend_bound (hσ n) (hσ (n + hf))
  have hTQ : (-(∑ v in Finset.range hf, σ v)) - hf ≤
      -(∑ i in Finset.range hf, σ (i + hf)) +
        -(∑ n in Finset.range hf, σ n * σ (n + hf)) := by
    have h1 : ∑ n in Finset.range hf, (-σ n - 1) =
        -(∑ v in Finset.range hf, σ v) - hf := by
      rw [Finset.sum_sub_distrib, Finset.sum_neg_distrib]
      simp
    have h2 : ∑ n in Finset.range hf, (-σ (n + hf) - σ n * σ (n + hf)) =
        -(∑ i in Finset.range hf, σ (i + hf)) +
          -(∑ n in Finset.range hf, σ n * σ (n + hf)) := by
      rw [Finset.sum_sub_distrib, Finset.sum_neg_distrib]
      ring
    rw [← h1, ← h2]
    exact hQ
  have hP1 : 2 * pairSum (fun _ => 1) hf = (hf : Int) ^ 2 - hf := by
    have h := two_pairSum (fun _ => 1) (fun _ => Or.inl rfl) hf
    simpa using h
  have hPσ : 2 * pairSum σ hf = (∑ v in Finset.range hf, σ v) ^ 2 - hf :=
    two_pairSum σ hσ hf
  have hS2 : (∑ v in Finset.range hf, σ v) ^ 2 ≤ (hf : Int) ^ 2 :=
    sum_pm_sq_le σ hσ hf
  have hσ1 : σ 1 ≤ 1 := by
    rcases hσ 1 with h | h <;> omega
  linarith [hQ, hTQ, hP1, hPσ, hS2, hσ1]

lemma mem_loopsPendBucket {hf n : Nat} {p : Nat × Nat} :
    p ∈ loopsPendBucket hf n ↔
      p = (n, n + 2 * hf) ∨ p = (n + hf, n + 3 * hf) := by
  simp [loopsPendBucket, Finset.mem_insert, Finset.mem_singleton]

lemma loopsKeys_split (hf : Nat) :
    loopsKeys hf hf = restKeys hf ∪ pendKeys hf := by
  ext p
  simp only [loopsKeys, restKeys, pendKeys, loopsBucket, Finset.mem_biUnion,
    Finset.mem_union]
  constructor
  · rintro ⟨n, hn, h | h⟩
    · exact Or.inl ⟨n, hn, h⟩
    · exact Or.inr ⟨n, hn, h⟩
  · rintro (⟨n, hn, h⟩ | ⟨n, hn, h⟩)
    · exact ⟨n, hn, Or.inl h⟩
    · exact ⟨n, hn, Or.inr h⟩

lemma restKeys_snd_lt {hf : Nat} (h1 : 1 ≤ hf) {p : Nat × Nat}
    (hp : p ∈ restKeys hf) : p.2 < 2 * hf := by
  obtain ⟨n, hn, hb⟩ := Finset.mem_biUnion.mp hp
  rw [Finset.mem_range] at hn
  have hmod : (n + 1) % hf < hf := Nat.mod_lt _ (by omega)
  simp only [loopsRestBucket, Finset.mem_union, Finset.mem_insert,
    Finset.mem_singleton] at hb
  rcases hb with hb | hb | hb
  · have hcross : p = (n, n + hf) := by
      by_cases hodd : n % 2 = 1
      · rw [if_pos hodd] at hb
        exact Finset.mem_singleton.mp hb
      · rw [if_neg hodd] at hb
        exact absurd hb (Finset.not_mem_empty p)
    rw [hcross]
    show n + hf < 2 * hf
    omega
  · rcases ekey_cases n ((n + 1) % hf) with he | he <;> rw [hb, he] <;>
      show _ < 2 * hf <;> omega
  · rcases ekey_cases (n + hf) ((n + 1) % hf + hf) with he | he <;>
      rw [hb, he] <;> show _ < 2 * hf <;> omega

lemma pendKeys_snd_ge {hf : Nat} {p : Nat × Nat}
    (hp : p ∈ pendKeys hf) : 2 * hf ≤ p.2 := by
  obtain ⟨n, hn, hb⟩ := Finset.mem_biUnion.mp hp
  rcases mem_loopsPendBucket.mp hb with hb | hb <;> rw [hb] <;>
    show 2 * hf ≤ _ <;> omega

lemma rest_pend_disjoint {hf : Nat} (h1 : 1 ≤ hf) :
    Disjoint (restKeys hf) (pendKeys hf) := by
  rw [Finset.disjoint_left]
  intro p hr hpd
  have := restKeys_snd_lt h1 hr
  have := pendKeys_snd_ge hpd
  omega

lemma pendBucket_disjoint (hf : Nat) :
    (↑(Finset.range hf) : Set Nat).PairwiseDisjoint (loopsPendBucket hf) := by
  intro x hx y hy hxy
  rw [Finset.mem_coe, Finset.mem_range] at hx hy
  simp only [Function.onFun]
  rw [Finset.disjoint_left]
  intro p hpx hpy
  rcases mem_loopsPendBucket.mp hpx with h1 | h1 <;>
    rcases mem_loopsPendBucket.mp hpy with h2 | h2 <;>
    rw [h1, Prod.mk.injEq] at h2 <;> omega

lemma pend0_mem {hf n : Nat} (hn : n < hf) :
    ((n, n + 2 * hf) : Nat × Nat) ∈ loopsKeys hf hf :=
  Finset.mem_biUnion.mpr ⟨n, Finset.mem_range.mpr hn,
    Finset.mem_union_right _ (mem_loopsPendBucket.mpr (Or.inl rfl))⟩

lemma pend1_mem {hf n : Nat} (hn : n < hf) :
    ((n + hf, n + 3 * hf) : Nat × Nat) ∈ loopsKeys hf hf :=
  Finset.mem_biUnion.mpr ⟨n, Finset.mem_range.mpr hn,
    Finset.mem_union_right _ (mem_loopsPendBucket.mpr (Or.inr rfl))⟩

lemma rest_subset_loopsKeys {hf : Nat} {p : Nat × Nat}
    (hp : p ∈ restKeys hf) : p ∈ loopsKeys hf hf := by
  obtain ⟨n, hn, hb⟩ := Finset.mem_biUnion.mp hp
  exact Finset.mem_biUnion.mpr ⟨n, hn, Finset.mem_union_left _ hb⟩

lemma loops_rest_quad {hf : Nat} {p : Nat × Nat} (hp : p ∈ restKeys hf) :
    (loopsModel hf).quad p = -1 := by
  show (if p ∈ loopsKeys hf hf then (-1 : Int) else 0) = -1
  rw [if_pos (rest_subset_loopsKeys hp)]

lemma loops_linear_sum (hf : Nat) (h2 : 2 ≤ hf) (τ : Nat → Int) :
    ∑ v in (loopsModel hf).linearKeys, (loopsModel hf).linear v * τ v =
      ∑ n in Finset.range hf, ((if n = 0 then (0 : Int) else 1) * τ n +
        (if n = 0 then (0 : Int) else 1) * τ (n + hf) +
        -(τ (n + 2 * hf)) + -(τ (n + 3 * hf))) := by
  have s1 : (∑ v in Finset.Ico 0 hf, (loopsModel hf).linear v * τ v) +
      (∑ v in Finset.Ico hf (4 * hf), (loopsModel hf).linear v * τ v) =
      ∑ v in Finset.Ico 0 (4 * hf), (loopsModel hf).linear v * τ v :=
    Finset.sum_Ico_consecutive _ (by omega) (by omega)
  have s2 : (∑ v in Finset.Ico hf (2 * hf), (loopsModel hf).linear v * τ v) +
      (∑ v in Finset.Ico (2 * hf) (4 * hf), (loopsModel hf).linear v * τ v) =
      ∑ v in Finset.Ico hf (4 * hf), (loopsModel hf).linear v * τ v :=
    Finset.sum_Ico_consecutive _ (by omega) (by omega)
  have s3 : (∑ v in Finset.Ico (2 * hf) (3 * hf), (loopsModel hf).linear v * τ v) +
      (∑ v in Finset.Ico (3 * hf) (4 * hf), (loopsModel hf).linear v * τ v) =
      ∑ v in Finset.Ico (2 * hf) (4 * hf), (loopsModel hf).linear v * τ v :=
    Finset.sum_Ico_consecutive _ (by omega) (by omega)
  have hLK : (loopsModel hf).linearKeys = Finset.Ico 0 (4 * hf) := by
    rw [← Finset.range_eq_Ico]
    rfl
  rw [hLK, ← s1, ← s2, ← s3]
  have c0 : ∑ v in Finset.Ico 0 hf, (loopsModel hf).linear v * τ v =
      ∑ n in Finset.range hf, (if n = 0 then (0 : Int) else 1) * τ n := by
    rw [← Finset.range_eq_Ico]
    refine Finset.sum_congr rfl ?_
    intro v hv
    rw [Finset.mem_range] at hv
    show (if v = 0 then 0 else if v = hf then 0
      else if v < 2 * hf then 1 else if v < 4 * hf then -1 else 0 : Int) *
        τ v = _
    by_cases hv0 : v = 0
    · rw [if_pos hv0, if_pos hv0]
    · rw [if_neg hv0, if_neg (by omega), if_pos (by omega), if_neg hv0]
  have c1 : ∑ v in Finset.Ico hf (2 * hf), (loopsModel hf).linear v * τ v =
      ∑ n in Finset.range hf, (if n = 0 then (0 : Int) else 1) * τ (n + hf) := by
    rw [Finset.sum_Ico_eq_sum_range]
    have hsub : 2 * hf - hf = hf := by omega
    rw [hsub]
    refine Finset.sum_congr rfl ?_
    intro i hi
    rw [Finset.mem_range] at hi
    show (if hf + i = 0 then 0 else if hf + i = hf then 0
      else if hf + i < 2 * hf then 1 else if hf + i < 4 * hf then -1 else 0 :
        Int) * τ (hf + i) = _
    rw [Nat.add_comm hf i]
    by_cases hi0 : i = 0
    · rw [if_neg (by omega), if_pos (by omega), if_pos hi0]
    · rw [if_neg (by omega), if_neg (by omega), if_pos (by omega), if_neg hi0]
  have c2 : ∑ v in Finset.Ico (2 * hf) (3 * hf), (loopsModel hf).linear v * τ v =
      ∑ n in Finset.range hf, -(τ (n + 2 * hf)) := by
    rw [Finset.sum_Ico_eq_sum_range]
    have hsub : 3 * hf - 2 * hf = hf := by omega
    rw [hsub]
    refine Finset.sum_congr rfl ?_
    intro i hi
    rw [Finset.mem_range] at hi
    show (if 2 * hf + i = 0 then 0 else if 2 * hf + i = hf then 0
      else if 2 * hf + i < 2 * hf then 1
      else if 2 * hf + i < 4 * hf then -1 else 0 : Int) * τ (2 * hf + i) = _
    rw [Nat.add_comm (2 * hf) i, if_neg (by omega), if_neg (by omega),
      if_neg (by omega), if_pos (by omega)]
    ring
  have c3 : ∑ v in Finset.Ico (3 * hf) (4 * hf), (loopsModel hf).linear v * τ v =
      ∑ n in Finset.range hf, -(τ (n + 3 * hf)) := by
    rw [Finset.sum_Ico_eq_sum_range]
    have hsub : 4 * hf - 3 * hf = hf := by omega
    rw [hsub]
    refine Finset.sum_congr rfl ?_
    intro i hi
    rw [Finset.mem_range] at hi
    show (if 3 * hf + i = 0 then 0 else if 3 * hf + i = hf then 0
      else if 3 * hf + i < 2 * hf then 1
      else if 3 * hf + i < 4 * hf then -1 else 0 : Int) * τ (3 * hf + i) = _
    rw [Nat.add_comm (3 * hf) i, if_neg (by omega), if_neg (by omega),
      if_neg (by omega), if_pos (by omega)]
    ring
  rw [c0, c1, c2, c3, ← Finset.sum_add_distrib, ← Finset.sum_add_distrib,
    ← Finset.sum_add_distrib]
  exact Finset.sum_congr rfl (fun n _ => by ring)

lemma loops_pend_sum (hf : Nat) (h2 : 2 ≤ hf) (τ : Nat → Int) :
    ∑ p in pendKeys hf, (loopsModel hf).quad p * τ p.1 * τ p.2 =
      ∑ n in Finset.range hf, (-(τ n * τ (n + 2 * hf)) +
        -(τ (n + hf) * τ (n + 3 * hf))) := by
  rw [pendKeys, Finset.sum_biUnion (pendBucket_disjoint hf)]
  refine Finset.sum_congr rfl ?_
  intro n hn
  rw [Finset.mem_range] at hn
  have hne : ((n, n + 2 * hf) : Nat × Nat) ≠ (n + hf, n + 3 * hf) := by
    rw [Ne, Prod.mk.injEq]
    omega
  rw [loopsPendBucket, Finset.sum_insert (by
    rw [Finset.mem_singleton]
    exact hne), Finset.sum_singleton]
  show (if ((n, n + 2 * hf) : Nat × Nat) ∈ loopsKeys hf hf then (-1 : Int)
      else 0) * τ n * τ (n + 2 * hf) +
    (if ((n + hf, n + 3 * hf) : Nat × Nat) ∈ loopsKeys hf hf then (-1 : Int)
      else 0) * τ (n + hf) * τ (n + 3 * hf) = _
  rw [if_pos (pend0_mem hn), if_pos (pend1_mem hn)]
  ring

lemma loops_energy_eq (hf : Nat) (h2 : 2 ≤ hf) (τ : Nat → Int) :
    (loopsModel hf).energy τ =
      (∑ n in Finset.range hf, ((if n = 0 then (0 : Int) else 1) * τ n +
        (if n = 0 then (0 : Int) else 1) * τ (n + hf) +
        -(τ (n + 2 * hf)) + -(τ (n + 3 * hf)) +
        (-(τ n * τ (n + 2 * hf)) + -(τ (n + hf) * τ (n + 3 * hf))))) +
      ∑ p in restKeys hf, (loopsModel hf).quad p * τ p.1 * τ p.2 := by
  rw [BQM.energy, loops_linear_sum hf h2 τ]
  have hQK : ∑ p in (loopsModel hf).quadKeys,
      (loopsModel hf).quad p * τ p.1 * τ p.2 =
      (∑ p in restKeys hf, (loopsModel hf).quad p * τ p.1 * τ p.2) +
        ∑ p in pendKeys hf, (loopsModel hf).quad p * τ p.1 * τ p.2 := by
    show ∑ p in loopsKeys hf hf, (loopsModel hf).quad p * τ p.1 * τ p.2 = _
    rw [loopsKeys_split hf, Finset.sum_union (rest_pend_disjoint (by omega))]
  rw [hQK, loops_pend_sum hf h2 τ]
  conv_rhs => rw [Finset.sum_add_distrib]
  ring

lemma loops_energy_min (hf : Nat) (h2 : 2 ≤ hf) (σ : Nat → Int)
    (hσ : ∀ v, σ v = 1 ∨ σ v = -1) :
    (loopsModel hf).energy (fun _ => 1) ≤ (loopsModel hf).energy σ := by
  rw [loops_energy_eq hf h2 σ, loops_energy_eq hf h2 (fun _ => 1)]
  refine add_le_add ?_ ?_
  · refine Finset.sum_le_sum ?_
    intro n _
    have hc : (if n = 0 then (0 : Int) else 1) = 0 ∨
        (if n = 0 then (0 : Int) else 1) = 1 := by
      split_ifs
      · exact Or.inl rfl
      · exact Or.inr rfl
    have t1 := tri_bound hc (hσ n) (hσ (n + 2 * hf))
    have t2 := tri_bound hc (hσ (n + hf)) (hσ (n + 3 * hf))
    simp only [mul_one, one_mul]
    linarith
  · refine Finset.sum_le_sum ?_
    intro p hp
    rw [loops_rest_quad hp]
    have := pm_mul_le_one (hσ p.1) (hσ p.2)
    simp only [mul_one, one_mul]
    linarith

lemma cliqueKeys_card (hf : Nat) :
    (cliqueKeys hf hf).card = Nat.choose hf 2 + hf := by
  rw [cliqueKeys, Finset.card_biUnion (fun x _ y _ hxy => by
    rw [Finset.disjoint_left]
    intro p hpx hpy
    exact hxy ((cliqueBucket_fst hpx) ▸ (cliqueBucket_fst hpy)))]
  have hone : ∀ n ∈ Finset.range hf, (cliqueBucket hf n).card = hf - n := by
    intro n hn
    rw [Finset.mem_range] at hn
    rw [cliqueBucket, Finset.card_union_of_disjoint (by
      rw [Finset.disjoint_singleton_right]
      intro hmem
      have := mem_cliqueInnerKeys.mp hmem
      omega)]
    rw [cliqueInnerKeys, Finset.card_image_of_injective _ (fun x y hxy =>
      (Prod.mk.injEq n x n y ▸ hxy).2), Nat.card_Ico, Finset.card_singleton]
    omega
  rw [Finset.sum_congr rfl hone]
  have hrefl := Finset.sum_range_reflect (fun i => hf - i) hf
  have hcong : ∀ j ∈ Finset.range hf, hf - (hf - 1 - j) = j + 1 := by
    intro j hj
    rw [Finset.mem_range] at hj
    omega
  rw [← hrefl, Finset.sum_congr rfl hcong, Finset.sum_add_distrib]
  have hgauss := Finset.sum_range_id_mul_two hf
  have hchoose : Nat.choose hf 2 = hf * (hf - 1) / 2 := Nat.choose_two_right hf
  simp only [Finset.sum_const, Finset.card_range, smul_eq_mul, mul_one]
  omega

lemma cliqueKeys_ne {hf : Nat} (h1 : 1 ≤ hf) {p : Nat × Nat}
    (hp : p ∈ cliqueKeys hf hf) : p.1 ≠ p.2 := by
  obtain ⟨a, b⟩ := p
  rcases mem_cliqueKeys.mp hp with ⟨_, hab, _⟩ | ⟨_, hb⟩ <;>
    show a ≠ b <;> omega

lemma loopsKeys_ne {hf : Nat} (h2 : 2 ≤ hf) {p : Nat × Nat}
    (hp : p ∈ loopsKeys hf hf) : p.1 ≠ p.2 := by
  obtain ⟨n, hn, hb⟩ := Finset.mem_biUnion.mp hp
  rw [Finset.mem_range] at hn
  have hm1 : ¬ n = (n + 1) % hf := succ_mod_ne h2 hn
  rcases mem_loopsBucket.mp hb with (⟨_, hb⟩ | hb | hb) | (hb | hb)
  · rw [hb]
    show n ≠ n + hf
    omega
  · rcases ekey_cases n ((n + 1) % hf) with he | he <;> rw [hb, he] <;>
      simp only [Ne, Prod.mk.injEq] <;> omega
  · rcases ekey_cases (n + hf) ((n + 1) % hf + hf) with he | he <;>
      rw [hb, he] <;> simp only [Ne, Prod.mk.injEq] <;> omega
  · rw [hb]
    show n ≠ n + 2 * hf
    omega
  · rw [hb]
    show n + hf ≠ n + 3 * hf
    omega

lemma loopsKeys_coord_lt {hf : Nat} {p : Nat × Nat}
    (hp : p ∈ loopsKeys hf hf) : p.1 < 4 * hf ∧ p.2 < 4 * hf := by
  obtain ⟨n, hn, hb⟩ := Finset.mem_biUnion.mp hp
  rw [Finset.mem_range] at hn
  have hmod : (n + 1) % hf < hf := Nat.mod_lt _ (by omega)
  rcases mem_loopsBucket.mp hb with (⟨_, hb⟩ | hb | hb) | (hb | hb)
  · rw [hb]
    constructor <;> show _ < 4 * hf <;> omega
  · rcases ekey_cases n ((n + 1) % hf) with he | he <;> rw [hb, he] <;>
      constructor <;> show _ < 4 * hf <;> omega
  · rcases ekey_cases (n + hf) ((n + 1) % hf + hf) with he | he <;>
      rw [hb, he] <;> constructor <;> show _ < 4 * hf <;> omega
  · rw [hb]
    constructor <;> show _ < 4 * hf <;> omega
  · rw [hb]
    constructor <;> show _ < 4 * hf <;> omega

lemma loopsModel_nodeSet (hf : Nat) :
    (loopsModel hf).nodeSet = Finset.range (4 * hf) := by
  rw [BQM.nodeSet]
  have hLK : (loopsModel hf).linearKeys = Finset.range (4 * hf) := rfl
  rw [hLK]
  ext v
  simp only [Finset.mem_union, Finset.mem_image, Finset.mem_range]
  constructor
  · rintro ((hv | ⟨p, hp, rfl⟩) | ⟨p, hp, rfl⟩)
    · exact hv
    · exact (loopsKeys_coord_lt hp).1
    · exact (loopsKeys_coord_lt hp).2
  · intro hv
    exact Or.inl (Or.inl hv)

/-- C1: for every valid input (even `n ≥ 6` for `anti_crossing_clique`, even
`n ≥ 8` for `anti_crossing_loops`) the generator succeeds, the returned model
has spin vartype, and the all-`+1` assignment attains the minimum energy over
all `{-1, +1}`-valued assignments. -/
theorem c1_spin_ground_state (n : Int) :
    (n % 2 = 0 → 6 ≤ n →
      anti_crossing_clique n = Except.ok (cliqueModel (n / 2).toNat) ∧
      (cliqueModel (n / 2).toNat).vartype = Vartype.SPIN ∧
      ∀ σ : Nat → Int, (∀ v, σ v = 1 ∨ σ v = -1) →
        (cliqueModel (n / 2).toNat).energy (fun _ => 1) ≤
          (cliqueModel (n / 2).toNat).energy σ) ∧
    (n % 2 = 0 → 8 ≤ n →
      anti_crossing_loops n = Except.ok (loopsModel (n / 4).toNat) ∧
      (loopsModel (n / 4).toNat).vartype = Vartype.SPIN ∧
      ∀ σ : Nat → Int, (∀ v, σ v = 1 ∨ σ v = -1) →
        (loopsModel (n / 4).toNat).energy (fun _ => 1) ≤
          (loopsModel (n / 4).toNat).energy σ) := by
  constructor
  · intro h2 h6
    refine ⟨clique_spec n h2 h6, rfl, ?_⟩
    intro σ hσ
    exact clique_energy_min (n / 2).toNat (by omega) σ hσ
  · intro h2 h8
    refine ⟨loops_spec n h2 h8, rfl, ?_⟩
    intro σ hσ
    exact loops_energy_min (n / 4).toNat (by omega) σ hσ

/-- Witness for C1 at the smallest valid inputs `6` and `8`. -/
theorem c1_witness :
    (anti_crossing_clique 6 = Except.ok (cliqueModel ((6 : Int) / 2).toNat) ∧
      (cliqueModel ((6 : Int) / 2).toNat).vartype = Vartype.SPIN ∧
      ∀ σ : Nat → Int, (∀ v, σ v = 1 ∨ σ v = -1) →
        (cliqueModel ((6 : Int) / 2).toNat).energy (fun _ => 1) ≤
          (cliqueModel ((6 : Int) / 2).toNat).energy σ) ∧
    (anti_crossing_loops 8 = Except.ok (loopsModel ((8 : Int) / 4).toNat) ∧
      (loopsModel ((8 : Int) / 4).toNat).vartype = Vartype.SPIN ∧
      ∀ σ : Nat → Int, (∀ v, σ v = 1 ∨ σ v = -1) →
        (loopsModel ((8 : Int) / 4).toNat).energy (fun _ => 1) ≤
          (loopsModel ((8 : Int) / 4).toNat).energy σ) :=
  ⟨(c1_spin_ground_state 6).1 (by norm_num) (by norm_num),
   (c1_spin_ground_state 8).2 (by norm_num) (by norm_num)⟩

/-- C2 counterexample: at `num_variables = 10` (even, `≥ 8`, not divisible by
4) the node set of the returned model is `[0, 8)`, not `[0, 10)`; node `9` is
absent. -/
theorem c2_counterexample :
    anti_crossing_loops 10 = Except.ok (loopsModel ((10 : Int) / 4).toNat) ∧
    (loopsModel ((10 : Int) / 4).toNat).nodeSet ≠ Finset.range 10 ∧
    (9 : Nat) ∉ (loopsModel ((10 : Int) / 4).toNat).nodeSet := by
  refine ⟨loops_spec 10 (by norm_num) (by norm_num), ?_, ?_⟩
  · decide
  · decide

/-- C2 (amended): for every `num_variables` divisible by 4 with
`num_variables ≥ 8`, the model returned by `anti_crossing_loops` has node set
exactly `[0, num_variables)`; the four quarter groups cover all variables. -/
theorem c2_nodes_amended (n : Int) (h4 : n % 4 = 0) (h8 : 8 ≤ n) :
    anti_crossing_loops n = Except.ok (loopsModel (n / 4).toNat) ∧
    (loopsModel (n / 4).toNat).nodeSet = Finset.range n.toNat := by
  refine ⟨loops_spec n (by omega) h8, ?_⟩
  rw [loopsModel_nodeSet]
  congr 1
  omega

/-- Witness for C2 (amended) at `num_variables = 8`. -/
theorem c2_witness :
    anti_crossing_loops 8 = Except.ok (loopsModel ((8 : Int) / 4).toNat) ∧
    (loopsModel ((8 : Int) / 4).toNat).nodeSet = Finset.range (8 : Int).toNat :=
  c2_nodes_amended 8 (by norm_num) (by norm_num)

/-- C3: for every valid even `n ≥ 6` with `hf = n / 2`, the clique model has
edge weight `-1` on every internal pair `(a, b)` with `a < b < hf` and on
every pendant pair `(a, a + hf)`; node weights are `+1` on `[0, hf)` except
node `1` (weight exactly `0`) and `-1` on `[hf, n)`. -/
theorem c3_clique_weights (n : Int) (h2 : n % 2 = 0) (h6 : 6 ≤ n) :
    anti_crossing_clique n = Except.ok (cliqueModel (n / 2).toNat) ∧
    (∀ a b : Nat, a < b → b < (n / 2).toNat →
      (a, b) ∈ (cliqueModel (n / 2).toNat).quadKeys ∧
        (cliqueModel (n / 2).toNat).quad (a, b) = -1) ∧
    (∀ a : Nat, a < (n / 2).toNat →
      (a, a + (n / 2).toNat) ∈ (cliqueModel (n / 2).toNat).quadKeys ∧
        (cliqueModel (n / 2).toNat).quad (a, a + (n / 2).toNat) = -1) ∧
    (∀ a : Nat, a < (n / 2).toNat → a ≠ 1 →
      (cliqueModel (n / 2).toNat).linear a = 1) ∧
    (cliqueModel (n / 2).toNat).linear 1 = 0 ∧
    (∀ a : Nat, (n / 2).toNat ≤ a → a < n.toNat →
      (cliqueModel (n / 2).toNat).linear a = -1) := by
  refine ⟨clique_spec n h2 h6, ?_, ?_, ?_, ?_, ?_⟩
  · intro a b hab hb
    have hmem : ((a, b) : Nat × Nat) ∈ cliqueKeys (n / 2).toNat (n / 2).toNat :=
      mem_cliqueKeys.mpr (Or.inl ⟨by omega, hab, hb⟩)
    refine ⟨hmem, ?_⟩
    show (if ((a, b) : Nat × Nat) ∈ cliqueKeys (n / 2).toNat (n / 2).toNat then
      (-1 : Int) else 0) = -1
    rw [if_pos hmem]
  · intro a ha
    have hmem : ((a, a + (n / 2).toNat) : Nat × Nat) ∈
        cliqueKeys (n / 2).toNat (n / 2).toNat :=
      mem_cliqueKeys.mpr (Or.inr ⟨ha, rfl⟩)
    refine ⟨hmem, ?_⟩
    show (if ((a, a + (n / 2).toNat) : Nat × Nat) ∈
      cliqueKeys (n / 2).toNat (n / 2).toNat then (-1 : Int) else 0) = -1
    rw [if_pos hmem]
  · intro a ha hne
    show (if a = 1 then 0 else if a < (n / 2).toNat then 1
      else if a < 2 * (n / 2).toNat then -1 else 0 : Int) = 1
    rw [if_neg hne, if_pos ha]
  · show (if (1 : Nat) = 1 then 0 else if 1 < (n / 2).toNat then 1
      else if 1 < 2 * (n / 2).toNat then -1 else 0 : Int) = 0
    rw [if_pos rfl]
  · intro a ha1 ha2
    show (if a = 1 then 0 else if a < (n / 2).toNat then 1
      else if a < 2 * (n / 2).toNat then -1 else 0 : Int) = -1
    rw [if_neg (by omega), if_neg (by omega), if_pos (by omega)]

/-- Witness for C3 at `num_variables = 6`: node weights in index order are
`[1, 0, 1, -1, -1, -1]`. -/
theorem c3_witness :
    anti_crossing_clique 6 = Except.ok (cliqueModel ((6 : Int) / 2).toNat) ∧
    List.map (cliqueModel ((6 : Int) / 2).toNat).linear (List.range 6) =
      [1, 0, 1, -1, -1, -1] :=
  ⟨(c3_clique_weights 6 (by norm_num) (by norm_num)).1, by decide⟩

/-- C4: each generator fails exactly on invalid input — `anti_crossing_clique`
if and only if `num_variables` is odd or `< 6`, `anti_crossing_loops` if and
only if odd or `< 8`; on failure only an error value is produced, never a
model. -/
theorem c4_invalid_iff (n : Int) :
    (isError (anti_crossing_clique n) = true ↔ (n % 2 ≠ 0 ∨ n < 6)) ∧
    (isError (anti_crossing_loops n) = true ↔ (n % 2 ≠ 0 ∨ n < 8)) := by
  constructor
  · constructor
    · intro h
      by_contra hc
      push_neg at hc
      rw [clique_spec n hc.1 hc.2] at h
      simp [isError] at h
    · intro h
      unfold anti_crossing_clique
      rw [if_pos h]
      rfl
  · constructor
    · intro h
      by_contra hc
      push_neg at hc
      rw [loops_spec n hc.1 hc.2] at h
      simp [isError] at h
    · intro h
      unfold anti_crossing_loops
      rw [if_pos h]
      rfl

/-- C5: in the model returned by `anti_crossing_loops 16` (`quarter = 4`),
nodes `0` and `4` have weight `0`, the other group-0/1 nodes have weight `+1`,
nodes `8..15` have weight `-1`, and cross-links between group 0 and group 1
are exactly the edges `(1, 5)` and `(3, 7)`, each of weight `-1`. -/
theorem c5_loops16 :
    anti_crossing_loops 16 = Except.ok (loopsModel ((16 : Int) / 4).toNat) ∧
    ((loopsModel ((16 : Int) / 4).toNat).linear 0 = 0 ∧
      (loopsModel ((16 : Int) / 4).toNat).linear 4 = 0) ∧
    (∀ v : Nat, v < 8 → v ≠ 0 → v ≠ 4 →
      (loopsModel ((16 : Int) / 4).toNat).linear v = 1) ∧
    (∀ v : Nat, v < 16 → 8 ≤ v →
      (loopsModel ((16 : Int) / 4).toNat).linear v = -1) ∧
    (∀ u ∈ Finset.range 4, ∀ v ∈ Finset.Ico 4 8,
      ((u, v) ∈ (loopsModel ((16 : Int) / 4).toNat).quadKeys ↔
        ((u, v) = (1, 5) ∨ (u, v) = (3, 7)))) ∧
    ((loopsModel ((16 : Int) / 4).toNat).quad (1, 5) = -1 ∧
      (loopsModel ((16 : Int) / 4).toNat).quad (3, 7) = -1) := by
  refine ⟨loops_spec 16 (by norm_num) (by norm_num), by decide, ?_, ?_, ?_,
    by decide⟩
  · decide
  · decide
  · decide

/-- Witness for C5: the cross-link `(1, 5)` is present and node `9` has
weight `-1`. -/
theorem c5_witness :
    ((1, 5) : Nat × Nat) ∈ (loopsModel ((16 : Int) / 4).toNat).quadKeys ∧
    (loopsModel ((16 : Int) / 4).toNat).linear 9 = -1 :=
  ⟨(c5_loops16.2.2.2.2.1 1 (by decide) 5 (by decide)).mpr (Or.inl rfl),
   c5_loops16.2.2.2.1 9 (by norm_num) (by norm_num)⟩

/-- C6: for every valid even `n ≥ 6` the clique model has exactly
`C(n/2, 2) + n/2` edges and `n` nodes with their weights set. -/
theorem c6_clique_counts (n : Int) (h2 : n % 2 = 0) (h6 : 6 ≤ n) :
    anti_crossing_clique n = Except.ok (cliqueModel (n / 2).toNat) ∧
    (cliqueModel (n / 2).toNat).quadKeys.card =
      Nat.choose (n / 2).toNat 2 + (n / 2).toNat ∧
    (cliqueModel (n / 2).toNat).linearKeys.card = n.toNat := by
  refine ⟨clique_spec n h2 h6, ?_, ?_⟩
  · exact cliqueKeys_card (n / 2).toNat
  · show (Finset.range (2 * (n / 2).toNat)).card = n.toNat
    rw [Finset.card_range]
    omega

/-- Witness for C6 at `num_variables = 6`: 6 edges and 6 nodes. -/
theorem c6_witness :
    anti_crossing_clique 6 = Except.ok (cliqueModel ((6 : Int) / 2).toNat) ∧
    (cliqueModel ((6 : Int) / 2).toNat).quadKeys.card = 6 ∧
    (cliqueModel ((6 : Int) / 2).toNat).linearKeys.card = 6 := by
  have h := c6_clique_counts 6 (by norm_num) (by norm_num)
  refine ⟨h.1, ?_, ?_⟩
  · rw [h.2.1]
    rfl
  · rw [h.2.2]
    rfl

/-- C7: generation is deterministic — two calls of either generator with the
same argument that both succeed return structurally identical models (equal
node weights, node sets, edge weights and edge sets). -/
theorem c7_deterministic (n : Int) (m₁ m₂ : BQM) :
    (anti_crossing_clique n = Except.ok m₁ →
      anti_crossing_clique n = Except.ok m₂ →
      m₁.linear = m₂.linear ∧ m₁.linearKeys = m₂.linearKeys ∧
        m₁.quad = m₂.quad ∧ m₁.quadKeys = m₂.quadKeys) ∧
    (anti_crossing_loops n = Except.ok m₁ →
      anti_crossing_loops n = Except.ok m₂ →
      m₁.linear = m₂.linear ∧ m₁.linearKeys = m₂.linearKeys ∧
        m₁.quad = m₂.quad ∧ m₁.quadKeys = m₂.quadKeys) := by
  constructor
  · intro ha hb
    rw [ha] at hb
    injection hb with h
    subst h
    exact ⟨rfl, rfl, rfl, rfl⟩
  · intro ha hb
    rw [ha] at hb
    injection hb with h
    subst h
    exact ⟨rfl, rfl, rfl, rfl⟩

/-- Witness for C7 at inputs `6` (clique) and `8` (loops). -/
theorem c7_witness :
    ((cliqueModel ((6 : Int) / 2).toNat).linear =
        (cliqueModel ((6 : Int) / 2).toNat).linear ∧
      (cliqueModel ((6 : Int) / 2).toNat).linearKeys =
        (cliqueModel ((6 : Int) / 2).toNat).linearKeys ∧
      (cliqueModel ((6 : Int) / 2).toNat).quad =
        (cliqueModel ((6 : Int) / 2).toNat).quad ∧
      (cliqueModel ((6 : Int) / 2).toNat).quadKeys =
        (cliqueModel ((6 : Int) / 2).toNat).quadKeys) ∧
    ((loopsModel ((8 : Int) / 4).toNat).linear =
        (loopsModel ((8 : Int) / 4).toNat).linear ∧
      (loopsModel ((8 : Int) / 4).toNat).linearKeys =
        (loopsModel ((8 : Int) / 4).toNat).linearKeys ∧
      (loopsModel ((8 : Int) / 4).toNat).quad =
        (loopsModel ((8 : Int) / 4).toNat).quad ∧
      (loopsModel ((8 : Int) / 4).toNat).quadKeys =
        (loopsModel ((8 : Int) / 4).toNat).quadKeys) :=
  ⟨(c7_deterministic 6 _ _).1 (clique_spec 6 (by norm_num) (by norm_num))
      (clique_spec 6 (by norm_num) (by norm_num)),
   (c7_deterministic 8 _ _).2 (loops_spec 8 (by norm_num) (by norm_num))
      (loops_spec 8 (by norm_num) (by norm_num))⟩

/-- C8: under their preconditions both generators succeed — no edge-weight
call ever receives equal endpoints, so the self-loop failure branch of the
edge operation is unreachable — and every recorded edge has two distinct
endpoints. -/
theorem c8_no_self_loops (n : Int) :
    (n % 2 = 0 → 6 ≤ n →
      anti_crossing_clique n = Except.ok (cliqueModel (n / 2).toNat) ∧
      ∀ p ∈ (cliqueModel (n / 2).toNat).quadKeys, p.1 ≠ p.2) ∧
    (n % 2 = 0 → 8 ≤ n →
      anti_crossing_loops n = Except.ok (loopsModel (n / 4).toNat) ∧
      ∀ p ∈ (loopsModel (n / 4).toNat).quadKeys, p.1 ≠ p.2) := by
  constructor
  · intro h2 h6
    refine ⟨clique_spec n h2 h6, ?_⟩
    intro p hp
    exact cliqueKeys_ne (by omega) hp
  · intro h2 h8
    refine ⟨loops_spec n h2 h8, ?_⟩
    intro p hp
    exact loopsKeys_ne (by omega) hp

/-- Witness for C8 at inputs `6` and `8`. -/
theorem c8_witness :
    (anti_crossing_clique 6 = Except.ok (cliqueModel ((6 : Int) / 2).toNat) ∧
      ∀ p ∈ (cliqueModel ((6 : Int) / 2).toNat).quadKeys, p.1 ≠ p.2) ∧
    (anti_crossing_loops 8 = Except.ok (loopsModel ((8 : Int) / 4).toNat) ∧
      ∀ p ∈ (loopsModel ((8 : Int) / 4).toNat).quadKeys, p.1 ≠ p.2) :=
  ⟨(c8_no_self_loops 6).1 (by norm_num) (by norm_num),
   (c8_no_self_loops 8).2 (by norm_num) (by norm_num)⟩

/-- C9: for every even `num_variables ≥ 8` not divisible by 4,
`anti_crossing_loops` returns the same model as for `num_variables - 2`; the
parameter is effectively rounded down to a multiple of 4 and the two largest
variable indices are never used. -/
theorem c9_loops_rounds_down (n : Int) (h2 : n % 2 = 0) (hnd : ¬ (4 ∣ n))
    (h8 : 8 ≤ n) :
    anti_crossing_loops n = anti_crossing_loops (n - 2) ∧
    anti_crossing_loops n = Except.ok (loopsModel (n / 4).toNat) ∧
    (n.toNat - 1) ∉ (loopsModel (n / 4).toNat).nodeSet ∧
    (n.toNat - 2) ∉ (loopsModel (n / 4).toNat).nodeSet := by
  have hmod : n % 4 = 2 := by omega
  have h10 : 10 ≤ n := by omega
  have heq : (n - 2) / 4 = n / 4 := by omega
  have hspec1 := loops_spec n h2 h8
  have hspec2 := loops_spec (n - 2) (by omega) (by omega)
  rw [heq] at hspec2
  refine ⟨by rw [hspec1, hspec2], hspec1, ?_, ?_⟩
  · rw [loopsModel_nodeSet, Finset.mem_range]
    omega
  · rw [loopsModel_nodeSet, Finset.mem_range]
    omega

/-- Witness for C9 at `num_variables = 10`. -/
theorem c9_witness :
    anti_crossing_loops 10 = anti_crossing_loops (10 - 2) ∧
    anti_crossing_loops 10 = Except.ok (loopsModel ((10 : Int) / 4).toNat) ∧
    ((10 : Int).toNat - 1) ∉ (loopsModel ((10 : Int) / 4).toNat).nodeSet ∧
    ((10 : Int).toNat - 2) ∉ (loopsModel ((10 : Int) / 4).toNat).nodeSet :=
  c9_loops_rounds_down 10 (by norm_num) (by norm_num) (by norm_num)

/-- C10: for every valid input, every edge weight in the model returned by
`anti_crossing_loops` is exactly `-1` — repeated writes of the degenerate
cycle edges overwrite rather than accumulate, so no edge ends with
weight `-2`. -/
theorem c10_loops_edges_minus_one (n : Int) (h2 : n % 2 = 0) (h8 : 8 ≤ n) :
    anti_crossing_loops n = Except.ok (loopsModel (n / 4).toNat) ∧
    ∀ p ∈ (loopsModel (n / 4).toNat).quadKeys,
      (loopsModel (n / 4).toNat).quad p = -1 := by
  refine ⟨loops_spec n h2 h8, ?_⟩
  intro p hp
  show (if p ∈ loopsKeys (n / 4).toNat (n / 4).toNat then (-1 : Int) else 0) = -1
  exact if_pos hp

/-- Witness for C10 at the degenerate input `8` (`quarter = 2`), where the
cycle edge `(0, 1)` is written twice and still has weight `-1`, not `-2`. -/
theorem c10_witness :
    (anti_crossing_loops 8 = Except.ok (loopsModel ((8 : Int) / 4).toNat) ∧
      ∀ p ∈ (loopsModel ((8 : Int) / 4).toNat).quadKeys,
        (loopsModel ((8 : Int) / 4).toNat).quad p = -1) ∧
    (loopsModel ((8 : Int) / 4).toNat).quad (0, 1) = -1 :=
  ⟨c10_loops_edges_minus_one 8 (by norm_num) (by norm_num), by decide⟩

/-- Witness for C4: both generators reject `5`/`4` and `7`/`6` respectively,
and accept `6` and `8`. -/
theorem c4_witness :
    isError (anti_crossing_clique 5) = true ∧
    isError (anti_crossing_clique 4) = true ∧
    isError (anti_crossing_loops 7) = true ∧
    isError (anti_crossing_loops 6) = true ∧
    isError (anti_crossing_clique 6) = false ∧
    isError (anti_crossing_loops 8) = false :=
  ⟨(c4_invalid_iff 5).1.mpr (by norm_num),
   (c4_invalid_iff 4).1.mpr (by norm_num),
   (c4_invalid_iff 7).2.mpr (by norm_num),
   (c4_invalid_iff 6).2.mpr (by norm_num),
   by
    have h := (c4_invalid_iff 6).1
    rcases hb : isError (anti_crossing_clique 6) with _ | _
    · rfl
    · exact absurd (h.mp hb) (by norm_num),
   by
    have h := (c4_invalid_iff 8).2
    rcases hb : isError (anti_crossing_loops 8) with _ | _
    · rfl
    · exact absurd (h.mp hb) (by norm_num)⟩
